import Mathlib

/-!
# Shallow embedding of the `hide-rs` matrix-encoding steganography core

This file embeds the core data model and operations of the `hide-rs` Rust
crate (files `src/bltm.rs`, `src/utils.rs`, `src/img.rs`, `src/encoder.rs`,
`src/decoder.rs`) as executable Lean definitions, and proves the testable
properties stated in the crate's specification against them.

Modelling conventions:
* Machine integers (`u8`, `u32`, `usize`) are modelled as `Nat`; explicit
  `% 256` / `% 2 ^ 32` appear exactly where the Rust code truncates
  (`as u8` / `as u32` casts).  Theorems about whole-image operations carry
  the hypothesis `width * height * 3 < 2 ^ 32` under which the `u32`
  arithmetic of the source never overflows, so plain `Nat` arithmetic is
  exact.
* `bitvec::BitVec<u8, Msb0>` values are modelled as `List Bool` (MSB-first
  order, as in the source).
* Fallible Rust functions returning `Result` are modelled with
  `Except HideError`.  A Rust `panic!` (only reachable from
  `BLTM3x3::lookup_vn`) is modelled by the dedicated error value
  `HideError.panicked`; the developments below prove it unreachable on the
  inputs the encoder actually produces.
* Indexing `v[i]` on a `BitVec` is modelled by `List.getD _ i false`; every
  use below is at a provably in-bounds index, where `getD` agrees with the
  source's (panicking) indexing.
-/

namespace HideRs

/-- Error type of the crate (`src/error.rs`, `enum HideError`).  The `Io` and
`Image` variants wrap foreign error payloads that never arise in the core
algorithms, so they are not modelled.  `panicked` models a Rust `panic!`
(it is proved unreachable for the calls the encoder makes). -/
inductive HideError where
  | MessageTooLarge : HideError
  | NoMessageFound : HideError
  | InvalidParameters : String → HideError
  | MatrixError : String → HideError
  | panicked : String → HideError
deriving DecidableEq

/-- An RGB pixel with three 8-bit channels (`image::Rgb<u8>`). -/
structure Rgb where
  r : Nat
  g : Nat
  b : Nat
deriving DecidableEq

/-- `src/img.rs`, `struct StegoImage`: an image with fixed dimensions and
row-major pixel storage (`pixels.getD (y * width + x)` is the pixel at
`(x, y)`), plus the `modified` flag. -/
structure StegoImage where
  width : Nat
  height : Nat
  pixels : List Rgb
  modified : Bool
deriving DecidableEq

/-- The row-major pixel-count invariant of a well-formed image buffer:
the backing store holds exactly `width * height` pixels. -/
def StegoImage.wf (img : StegoImage) : Prop :=
  img.pixels.length = img.width * img.height

/-- `StegoImage::get_pixel_rgb` (src/img.rs lines 72-84): bounds-checked
pixel read. -/
def StegoImage.get_pixel_rgb (img : StegoImage) (x y : Nat) : Except HideError Rgb :=
  if x ≥ img.width ∨ y ≥ img.height then
    .error (.InvalidParameters "Coordinates out of image bounds")
  else
    .ok (img.pixels.getD (y * img.width + x) ⟨0, 0, 0⟩)

/-- `StegoImage::set_pixel_rgb` (src/img.rs lines 87-113): bounds-checked
pixel write; sets the `modified` flag. -/
def StegoImage.set_pixel_rgb (img : StegoImage) (x y : Nat) (p : Rgb) :
    Except HideError StegoImage :=
  if x ≥ img.width ∨ y ≥ img.height then
    .error (.InvalidParameters "Coordinates out of image bounds")
  else
    .ok { img with pixels := img.pixels.set (y * img.width + x) p, modified := true }

/-- `StegoImage::max_message_size` (src/img.rs lines 223-228): total bit
capacity (3 bits per pixel) divided by 8, with no header subtraction. -/
def StegoImage.max_message_size (img : StegoImage) : Nat :=
  let total_pixels := img.width * img.height
  let total_bits := total_pixels * 3
  total_bits / 8

/-- Header size in bytes (`HEADER_SIZE` in src/encoder.rs and src/decoder.rs). -/
def HEADER_SIZE : Nat := 8

/-- `MESSAGE_FORMAT_VERSION` (src/encoder.rs line 12). -/
def MESSAGE_FORMAT_VERSION : Nat := 1

/-- `EXPECTED_FORMAT_VERSION` (src/decoder.rs line 12). -/
def EXPECTED_FORMAT_VERSION : Nat := 1

/-- `utils::bytes_to_bits` (src/utils.rs lines 85-93): expand each byte
MSB-first into 8 bits; `((byte >> (7 - i)) & 1) == 1`. -/
def bytes_to_bits (bytes : List Nat) : List Bool :=
  bytes.flatMap (fun byte => (List.range 8).map (fun i => ((byte >>> (7 - i)) &&& 1) == 1))

/-- Loop body of `utils::bits_to_bytes` (src/utils.rs lines 103-127),
carrying the `byte` accumulator and `bit_count` of the source. -/
def bits_to_bytes_go : List Bool → Nat → Nat → List Nat
  | [], byte, bit_count =>
    if bit_count > 0 then [byte <<< (8 - bit_count)] else []
  | bit :: rest, byte, bit_count =>
    let byte' := (byte <<< 1) ||| (if bit then 1 else 0)
    let bit_count' := bit_count + 1
    if bit_count' = 8 then byte' :: bits_to_bytes_go rest 0 0
    else bits_to_bytes_go rest byte' bit_count'

/-- `utils::bits_to_bytes`: pack bits MSB-first into bytes; a final partial
byte is left-shifted so unused low-order positions are zero. -/
def bits_to_bytes (bits : List Bool) : List Nat :=
  bits_to_bytes_go bits 0 0

/-- The while-loop of `utils::split_bits` (src/utils.rs lines 145-159).
The `fuel` argument makes the recursion structural; `bits.length` steps
always suffice since each iteration drops `chunk_size ≥ 1` bits. -/
def split_bits_go (chunk_size : Nat) : Nat → List Bool → List (List Bool)
  | 0, _ => []
  | _, [] => []
  | fuel + 1, bits =>
    let chunk := bits.take chunk_size
    let chunk := chunk ++ List.replicate (chunk_size - chunk.length) false
    chunk :: split_bits_go chunk_size fuel (bits.drop chunk_size)

/-- `utils::split_bits` (src/utils.rs lines 138-162): split into chunks of
`chunk_size` bits, zero-padding the final chunk; rejects `chunk_size = 0`. -/
def split_bits (bits : List Bool) (chunk_size : Nat) :
    Except HideError (List (List Bool)) :=
  if chunk_size = 0 then
    .error (.InvalidParameters "Chunk size cannot be zero")
  else
    .ok (split_bits_go chunk_size bits.length bits)

namespace BLTM3x3

/-- `BLTM3x3::columns` (src/bltm.rs lines 17-24): the three columns
C1, C2, C3 of the fixed binary lower-triangular matrix, right to left. -/
def columns : List (List Bool) :=
  [[false, false, true], [false, true, true], [true, true, true]]

/-- `BLTM3x3::bits_to_u8` (src/bltm.rs lines 27-33):
`result = (result << 1) | bit` folded over the bits. -/
def bits_to_u8 (bits : List Bool) : Nat :=
  bits.foldl (fun result bit => (result <<< 1) ||| (if bit then 1 else 0)) 0

/-- `BLTM3x3::u8_to_bits` (src/bltm.rs lines 36-42): the low 3 bits of a
value, MSB-first. -/
def u8_to_bits (value : Nat) : List Bool :=
  [(value &&& 4) != 0, (value &&& 2) != 0, (value &&& 1) != 0]

/-- `BLTM3x3::lookup_vn` (src/bltm.rs lines 45-109): the hardcoded
correction-vector table.  `none` models the `_ =>` branch of the Rust
`match`, which panics on a delta value outside `0..=7`. -/
def lookup_vn (delta : List Bool) : Option (List Bool) :=
  match bits_to_u8 delta with
  | 0 => some [false, false, false]
  | 1 => some [false, false, true]
  | 2 => some [false, true, true]
  | 3 => some [false, true, false]
  | 4 => some [true, true, false]
  | 5 => some [true, true, true]
  | 6 => some [true, false, true]
  | 7 => some [true, false, false]
  | _ => none

end BLTM3x3

namespace Encoder

/-- `Encoder::matrix_multiply` (src/encoder.rs lines 109-130), textually
identical to `Decoder::matrix_multiply` (src/decoder.rs lines 60-81):
GF(2) product of the fixed lower-triangular matrix with a 3-bit vector.
Entry `(i, j)` is read from `columns[2 - j][i]` and is skipped (implicitly 0)
when `i < j`. -/
def matrix_multiply (v : List Bool) : List Bool :=
  (List.range 3).map (fun i =>
    (List.range 3).foldl (fun bit j =>
      if i ≥ j then
        xor bit ((BLTM3x3.columns.getD (2 - j) []).getD i false && v.getD j false)
      else bit) false)

/-- `Encoder::encode_pixel` (src/encoder.rs lines 47-106): embed the message
bits into the LSBs of one RGB pixel.  `u8` negation `!1` is the mask `254`,
so `new &= !1` is `&&& 254` and `new |= 1` is `||| 1`.  `none` propagates
the panic of `lookup_vn` (unreachable for 3-bit chunks, as proved below). -/
def encode_pixel (r g b : Nat) (message_bits : List Bool) :
    Option (Nat × Nat × Nat) :=
  let cover_vector := [(r &&& 1) != 0, (g &&& 1) != 0, (b &&& 1) != 0]
  let z := matrix_multiply cover_vector
  let delta := (List.range message_bits.length).map
    (fun i => xor (z.getD i false) (message_bits.getD i false))
  match BLTM3x3.lookup_vn delta with
  | none => none
  | some vn =>
    let stego_vector := (List.range cover_vector.length).map
      (fun i => xor (cover_vector.getD i false) (vn.getD i false))
    let new_r := if stego_vector.getD 0 false then r ||| 1 else r &&& 254
    let new_g := if stego_vector.getD 1 false then g ||| 1 else g &&& 254
    let new_b := if stego_vector.getD 2 false then b ||| 1 else b &&& 254
    some (new_r, new_g, new_b)

/-- `Encoder::max_message_size` (src/encoder.rs lines 241-251). -/
def max_message_size (image : StegoImage) : Nat :=
  let total_pixels := image.width * image.height
  let total_bits := total_pixels * 3
  let total_bytes := total_bits / 8
  if total_bytes ≤ HEADER_SIZE then 0 else total_bytes - HEADER_SIZE

/-- `Encoder::create_header` (src/encoder.rs lines 167-182): 8-byte header
`[version, length as 4 bytes big-endian, 3 reserved zero bytes]`.  The
`as u8` casts of the shifted `u32` length are the `% 256`.  (The Rust
function wraps the array in `Ok`; it is infallible, so the `Result` layer
is dropped here.) -/
def create_header (message_length : Nat) : List Nat :=
  [MESSAGE_FORMAT_VERSION,
   (message_length >>> 24) % 256,
   (message_length >>> 16) % 256,
   (message_length >>> 8) % 256,
   message_length % 256,
   0, 0, 0]

/-- The row-major pixel traversal `for y in 0..height { for x in 0..width }`
shared by `Encoder::encode_message` and `Decoder::decode`. -/
def rowMajorCoords (width height : Nat) : List (Nat × Nat) :=
  (List.range height).flatMap (fun y => (List.range width).map (fun x => (x, y)))

/-- The pixel loop of `Encoder::encode_message` (src/encoder.rs lines
206-229): embed chunk `chunk_idx` into each successive pixel, returning the
image as soon as the chunks are exhausted. -/
def encode_loop (chunks : List (List Bool)) :
    List (Nat × Nat) → Nat → StegoImage → Except HideError StegoImage
  | [], _, image => .ok image
  | (x, y) :: rest, chunk_idx, image =>
    if chunk_idx ≥ chunks.length then .ok image
    else
      match image.get_pixel_rgb x y with
      | .error e => .error e
      | .ok pixel =>
        match encode_pixel pixel.r pixel.g pixel.b (chunks.getD chunk_idx []) with
        | none => .error (.panicked "Invalid delta value")
        | some (new_r, new_g, new_b) =>
          match image.set_pixel_rgb x y ⟨new_r, new_g, new_b⟩ with
          | .error e => .error e
          | .ok image' => encode_loop chunks rest (chunk_idx + 1) image'

/-- `Encoder::encode_message` (src/encoder.rs lines 192-232). -/
def encode_message (image : StegoImage) (message : List Nat) :
    Except HideError StegoImage :=
  let message_bits := bytes_to_bits message
  let max_bits := image.width * image.height * 3
  if message_bits.length > max_bits then .error .MessageTooLarge
  else
    match split_bits message_bits 3 with
    | .error e => .error e
    | .ok chunks => encode_loop chunks (rowMajorCoords image.width image.height) 0 image

/-- `Encoder::encode` (src/encoder.rs lines 140-159).  `message.len() as u32`
is the `% 2 ^ 32`. -/
def encode (cover_image : StegoImage) (message : List Nat) :
    Except HideError StegoImage :=
  let max_msg := max_message_size cover_image
  if message.length > max_msg then .error .MessageTooLarge
  else
    let header := create_header (message.length % 2 ^ 32)
    let full_message := header ++ message
    encode_message cover_image full_message

end Encoder

namespace Decoder

/-- `Decoder::decode_pixel` (src/decoder.rs lines 46-57): multiply the fixed
matrix with the vector of channel LSBs.  (`Decoder::matrix_multiply` is
textually identical to `Encoder::matrix_multiply`, so the one definition is
shared.) -/
def decode_pixel (r g b : Nat) : List Bool :=
  Encoder.matrix_multiply [(r &&& 1) != 0, (g &&& 1) != 0, (b &&& 1) != 0]

/-- `Decoder::extract_header` (src/decoder.rs lines 90-116). -/
def extract_header (bits : List Bool) : Except HideError (Nat × Nat) :=
  if bits.length < HEADER_SIZE * 8 then .error .NoMessageFound
  else
    let header_bytes := bits_to_bytes (bits.take (HEADER_SIZE * 8))
    let format_version := header_bytes.getD 0 0
    if format_version ≠ EXPECTED_FORMAT_VERSION then
      .error (.InvalidParameters
        ("Unsupported message format version: " ++ toString format_version))
    else
      let message_length :=
        ((header_bytes.getD 1 0) <<< 24) ||| ((header_bytes.getD 2 0) <<< 16) |||
          ((header_bytes.getD 3 0) <<< 8) ||| (header_bytes.getD 4 0)
      .ok (format_version, message_length)

/-- `(HEADER_SIZE * 8 + 2) / 3` (src/decoder.rs line 139): pixels needed to
cover the header. -/
def required_pixels : Nat := (HEADER_SIZE * 8 + 2) / 3

/-- The pixel loop of `Decoder::decode` (src/decoder.rs lines 141-167):
accumulate 3 decoded bits per pixel; once `required_pixels` pixels are seen,
parse the header early and reject images that cannot hold the declared
message. -/
def decode_loop (image : StegoImage) :
    List (Nat × Nat) → List Bool → Nat → Except HideError (List Bool)
  | [], all_bits, _ => .ok all_bits
  | (x, y) :: rest, all_bits, pixel_count =>
    match image.get_pixel_rgb x y with
    | .error e => .error e
    | .ok pixel =>
      let all_bits' := all_bits ++ decode_pixel pixel.r pixel.g pixel.b
      let pixel_count' := pixel_count + 1
      if pixel_count' = required_pixels then
        match extract_header all_bits' with
        | .error e => .error e
        | .ok (_, message_length) =>
          let message_bits := message_length * 8
          let total_bits_needed := HEADER_SIZE * 8 + message_bits
          let total_pixels_needed := (total_bits_needed + 2) / 3
          if total_pixels_needed > image.width * image.height then
            .error .NoMessageFound
          else decode_loop image rest all_bits' pixel_count'
      else decode_loop image rest all_bits' pixel_count'

/-- `Decoder::decode` (src/decoder.rs lines 125-190). -/
def decode (stego_image : StegoImage) : Except HideError (List Nat) :=
  let total_bits := stego_image.width * stego_image.height * 3
  if total_bits < HEADER_SIZE * 8 then .error .NoMessageFound
  else
    match decode_loop stego_image
        (Encoder.rowMajorCoords stego_image.width stego_image.height) [] 0 with
    | .error e => .error e
    | .ok all_bits =>
      match extract_header all_bits with
      | .error e => .error e
      | .ok (_, message_length) =>
        let message_bits := message_length * 8
        let total_bits_needed := HEADER_SIZE * 8 + message_bits
        if all_bits.length < total_bits_needed then .error .NoMessageFound
        else .ok (bits_to_bytes ((all_bits.drop (HEADER_SIZE * 8)).take message_bits))

/-- Plain extraction pass with no early header check, used to state the
spec's refinement claim that the early exit is not separately observable.
Modelled from the spec: "scan exactly ceil(64/3) pixels for the header, then
... continue the same accumulation"; here the whole accumulation runs first. -/
def extract_loop (image : StegoImage) :
    List (Nat × Nat) → List Bool → Except HideError (List Bool)
  | [], all_bits => .ok all_bits
  | (x, y) :: rest, all_bits =>
    match image.get_pixel_rgb x y with
    | .error e => .error e
    | .ok pixel => extract_loop image rest (all_bits ++ decode_pixel pixel.r pixel.g pixel.b)

/-- Modelled from the spec: the two-phase decoder of design note §9 — the
same final header parse and capacity check as `decode`, but with the early
in-loop check removed ("failing fast is an optimization, not separately
observable behavior from the final check"). -/
def decode_two_phase (stego_image : StegoImage) : Except HideError (List Nat) :=
  let total_bits := stego_image.width * stego_image.height * 3
  if total_bits < HEADER_SIZE * 8 then .error .NoMessageFound
  else
    match extract_loop stego_image
        (Encoder.rowMajorCoords stego_image.width stego_image.height) [] with
    | .error e => .error e
    | .ok all_bits =>
      match extract_header all_bits with
      | .error e => .error e
      | .ok (_, message_length) =>
        let message_bits := message_length * 8
        let total_bits_needed := HEADER_SIZE * 8 + message_bits
        if all_bits.length < total_bits_needed then .error .NoMessageFound
        else .ok (bits_to_bytes ((all_bits.drop (HEADER_SIZE * 8)).take message_bits))

end Decoder

/-! ### Derived definitions used to state the loop effects -/

/-- The 8 MSB-first bits of one byte, as produced by `bytes_to_bits`. -/
def byteBits (byte : Nat) : List Bool :=
  (List.range 8).map (fun i => ((byte >>> (7 - i)) &&& 1) == 1)

/-- Total version of `encode_pixel`, defined for stating the loop effect;
on 3-bit chunks it agrees with the source (`encode_pixel_spec`). -/
def encode_pixelT (p : Rgb) (c : List Bool) : Rgb :=
  match Encoder.encode_pixel p.r p.g p.b c with
  | some (nr, ng, nb) => ⟨nr, ng, nb⟩
  | none => p

/-- The cumulative effect of the encoder's pixel loop: pixel `i` carries
chunk `i` while chunks remain, later pixels are untouched. -/
def applyChunks : List Rgb → List (List Bool) → List Rgb
  | ps, [] => ps
  | [], _ :: _ => []
  | p :: ps, c :: cs => encode_pixelT p c :: applyChunks ps cs

/-! ### Decoded bit stream of an image -/

/-- All bits a full decoder pass extracts: 3 bits per pixel in storage
(row-major) order. -/
def imageBits (img : StegoImage) : List Bool :=
  img.pixels.flatMap (fun p => Decoder.decode_pixel p.r p.g p.b)

/-- Recognizer for a `HideError.InvalidParameters` decode failure. -/
def isInvalidParametersError : Except HideError (List Nat) → Bool
  | .error (.InvalidParameters _) => true
  | _ => false

/-- `StegoImage::new_rgb` (src/img.rs lines 35-43): fresh all-zero RGB
image of the given dimensions (`ImageBuffer::new` zero-initializes). -/
def StegoImage.new_rgb (width height : Nat) : StegoImage :=
  ⟨width, height, List.replicate (width * height) ⟨0, 0, 0⟩, false⟩

/-! ## Supporting lemmas -/


/-! ### Generic arithmetic helpers -/

/-- Disjoint-range bitwise or is addition. -/
lemma shiftLeft_or_eq_add {k : Nat} (a b : Nat) (h : b < 2 ^ k) :
    (a <<< k) ||| b = a * 2 ^ k + b := by
  rw [Nat.shiftLeft_eq, Nat.mul_comm, ← Nat.mul_add_lt_is_or h, Nat.mul_comm]

lemma or_mod_two (byte y : Nat) : (byte <<< 1) ||| (y % 2) = 2 * byte + y % 2 := by
  have := shiftLeft_or_eq_add (k := 1) byte (y % 2) (by omega)
  omega

lemma ite_mod_two (y : Nat) : (if y % 2 = 1 then (1 : Nat) else 0) = y % 2 := by
  rcases Nat.mod_two_eq_zero_or_one y with h | h <;> simp [h]

/-! ### Bit-utility lemmas -/

lemma bytes_to_bits_eq_flatMap (bytes : List Nat) :
    bytes_to_bits bytes = bytes.flatMap byteBits := rfl

lemma byteBits_expand (byte : Nat) :
    byteBits byte =
      [((byte >>> 7) &&& 1) == 1, ((byte >>> 6) &&& 1) == 1, ((byte >>> 5) &&& 1) == 1,
       ((byte >>> 4) &&& 1) == 1, ((byte >>> 3) &&& 1) == 1, ((byte >>> 2) &&& 1) == 1,
       ((byte >>> 1) &&& 1) == 1, ((byte >>> 0) &&& 1) == 1] := rfl

lemma shift_and_one (x k : Nat) : (x >>> k) &&& 1 = x / 2 ^ k % 2 := by
  rw [Nat.and_one_is_mod, Nat.shiftRight_eq_div_pow]

lemma bits_to_bytes_go_byte (x : Nat) (hx : x < 256) (rest : List Bool) :
    bits_to_bytes_go (byteBits x ++ rest) 0 0 = x :: bits_to_bytes_go rest 0 0 := by
  rw [byteBits_expand]
  simp only [List.cons_append, List.nil_append, bits_to_bytes_go, shift_and_one]
  norm_num [ite_mod_two, or_mod_two]
  omega

/-- Byte to bits to byte round trip for valid bytes. -/
lemma bits_to_bytes_bytes_to_bits (bytes : List Nat) (h : ∀ x ∈ bytes, x < 256) :
    bits_to_bytes (bytes_to_bits bytes) = bytes := by
  induction bytes with
  | nil => rfl
  | cons x l ih =>
    have hx : x < 256 := h x (List.mem_cons_self x l)
    have hl : ∀ y ∈ l, y < 256 := fun y hy => h y (List.mem_cons_of_mem x hy)
    rw [bytes_to_bits_eq_flatMap, List.flatMap_cons, ← bytes_to_bits_eq_flatMap,
      bits_to_bytes, bits_to_bytes_go_byte x hx, ← bits_to_bytes, ih hl]



lemma bits_to_bytes_go_falses :
    ∀ (j byte cnt : Nat), cnt + j = 8 → 0 < j →
      bits_to_bytes_go (List.replicate j false) byte cnt = [byte <<< j]
  | 0, _, _, _, hj => absurd hj (by omega)
  | j + 1, byte, cnt, hcnt, _ => by
    rw [List.replicate_succ]
    simp only [bits_to_bytes_go, Bool.false_eq_true, if_false, Nat.or_zero]
    by_cases h8 : cnt + 1 = 8
    · have hj : j = 0 := by omega
      subst hj
      simp [h8, bits_to_bytes_go]
    · have hj : 0 < j := by omega
      rw [if_neg h8, bits_to_bytes_go_falses j (byte <<< 1) (cnt + 1) (by omega) hj]
      rw [← Nat.shiftLeft_add]
      congr 2
      omega

lemma bits_to_bytes_go_pad :
    ∀ (bits : List Bool) (byte cnt : Nat), cnt < 8 → (cnt + bits.length) % 8 ≠ 0 →
      bits_to_bytes_go (bits ++ List.replicate (8 - (cnt + bits.length) % 8) false) byte cnt
        = bits_to_bytes_go bits byte cnt
  | [], byte, cnt, hcnt, hmod => by
    simp only [List.length_nil, Nat.add_zero] at hmod ⊢
    have hc : cnt % 8 = cnt := Nat.mod_eq_of_lt hcnt
    rw [hc] at hmod ⊢
    rw [List.nil_append, bits_to_bytes_go_falses (8 - cnt) byte cnt (by omega) (by omega)]
    simp only [bits_to_bytes_go]
    rw [if_pos (by omega)]
  | bit :: rest, byte, cnt, hcnt, hmod => by
    simp only [List.cons_append, bits_to_bytes_go]
    by_cases h8 : cnt + 1 = 8
    · rw [if_pos h8, if_pos h8]
      have h1 : (cnt + (bit :: rest).length) % 8 = rest.length % 8 := by
        simp only [List.length_cons]
        omega
      have h2 : rest.length % 8 ≠ 0 := by
        rw [h1] at hmod
        exact hmod
      rw [h1]
      have := bits_to_bytes_go_pad rest 0 0 (by omega) (by simpa using h2)
      simpa using this
    · rw [if_neg h8, if_neg h8]
      have h1 : (cnt + (bit :: rest).length) % 8 = (cnt + 1 + rest.length) % 8 := by
        simp only [List.length_cons]
        omega
      rw [h1] at hmod ⊢
      exact bits_to_bytes_go_pad rest _ (cnt + 1) (by omega) hmod

/-- Packing ignores trailing zero-fill up to the next byte boundary. -/
lemma bits_to_bytes_pad (bits : List Bool) (h : bits.length % 8 ≠ 0) :
    bits_to_bytes (bits ++ List.replicate (8 - bits.length % 8) false) = bits_to_bytes bits := by
  have := bits_to_bytes_go_pad bits 0 0 (by omega) (by simpa using h)
  simpa using this



/-! ### split_bits lemmas (chunk size 3) -/

lemma split_bits_go_length_mem (cs : Nat) :
    ∀ (fuel : Nat) (bits : List Bool) (c : List Bool),
      c ∈ split_bits_go cs fuel bits → c.length = cs
  | 0, _, _, h => by simp [split_bits_go] at h
  | fuel + 1, [], _, h => by simp [split_bits_go] at h
  | fuel + 1, bit :: rest, c, h => by
    simp only [split_bits_go, List.mem_cons] at h
    rcases h with h | h
    · subst h
      simp only [List.length_append, List.length_replicate, List.length_take]
      omega
    · exact split_bits_go_length_mem cs fuel _ c h

lemma split_bits_go_count (fuel : Nat) :
    ∀ (bits : List Bool), bits.length ≤ fuel →
      (split_bits_go 3 fuel bits).length = (bits.length + 2) / 3 := by
  induction fuel with
  | zero =>
    intro bits h
    have : bits = [] := List.eq_nil_of_length_eq_zero (by omega)
    subst this
    rfl
  | succ fuel ih =>
    intro bits h
    match bits with
    | [] => rfl
    | bit :: rest =>
      simp only [List.length_cons] at h
      simp only [split_bits_go, List.length_cons]
      rw [ih ((bit :: rest).drop 3)
        (by simp only [List.length_drop, List.length_cons]; omega)]
      simp only [List.length_drop, List.length_cons]
      omega

lemma split_bits_go_flatten (fuel : Nat) :
    ∀ (bits : List Bool), bits.length ≤ fuel →
      (split_bits_go 3 fuel bits).flatten
        = bits ++ List.replicate (3 * ((bits.length + 2) / 3) - bits.length) false := by
  induction fuel with
  | zero =>
    intro bits h
    have : bits = [] := List.eq_nil_of_length_eq_zero (by omega)
    subst this
    rfl
  | succ fuel ih =>
    intro bits h
    match bits with
    | [] => rfl
    | bit :: rest =>
      simp only [List.length_cons] at h
      simp only [split_bits_go, List.flatten_cons]
      rw [ih ((bit :: rest).drop 3)
        (by simp only [List.length_drop, List.length_cons]; omega)]
      rcases Nat.lt_or_ge (bit :: rest).length 3 with hlt | hge
      · have hdrop : (bit :: rest).drop 3 = [] := List.drop_eq_nil_of_le (by omega)
        have htake : (bit :: rest).take 3 = bit :: rest := List.take_of_length_le (by omega)
        rw [hdrop, htake]
        simp only [List.length_cons] at hlt
        simp only [List.length_nil, List.nil_append, List.length_cons, List.append_assoc,
          ← List.replicate_add]
        have hcount : 3 - (rest.length + 1) + (3 * ((0 + 2) / 3) - 0)
            = 3 * ((rest.length + 1 + 2) / 3) - (rest.length + 1) := by omega
        rw [hcount]
      · have htake3 : ((bit :: rest).take 3).length = 3 := by
          simp only [List.length_take, List.length_cons]
          simp only [List.length_cons] at hge
          omega
        rw [htake3]
        simp only [Nat.sub_self, List.replicate_zero, List.append_nil]
        rw [← List.append_assoc, List.take_append_drop]
        simp only [List.length_cons] at hge ⊢
        rw [List.append_cancel_left_eq]
        have hlen : ((bit :: rest).drop 3).length = rest.length + 1 - 3 := by
          simp only [List.length_drop, List.length_cons]
        congr 1
        simp only [List.length_drop, List.length_cons]
        omega



/-! ### LSB lemmas -/

lemma or_one_and_one (x : Nat) : (x ||| 1) &&& 1 = 1 := by
  apply Nat.eq_of_testBit_eq
  intro i
  rw [Nat.testBit_and, Nat.testBit_or]
  cases i with
  | zero => simp
  | succ j =>
    have h1 : (1 : Nat).testBit (j + 1) = false :=
      Nat.testBit_lt_two_pow (Nat.one_lt_two_pow (by omega))
    simp [h1]

lemma and_mask_and_one (x : Nat) : (x &&& 254) &&& 1 = 0 := by
  rw [Nat.and_assoc]
  norm_num

lemma or_one_eq (x : Nat) : x ||| 1 = 2 * (x / 2) + 1 := by
  apply Nat.eq_of_testBit_eq
  intro i
  rw [Nat.testBit_or]
  cases i with
  | zero =>
    simp only [Nat.testBit_zero]
    simp [Nat.mul_add_mod]
  | succ j =>
    have h1 : (1 : Nat).testBit (j + 1) = false :=
      Nat.testBit_lt_two_pow (Nat.one_lt_two_pow (by omega))
    rw [h1, Bool.or_false, Nat.testBit_add_one, Nat.testBit_add_one]
    congr 1
    omega

lemma or_one_div_two (x : Nat) : (x ||| 1) / 2 = x / 2 := by
  rw [or_one_eq]
  omega

set_option maxRecDepth 8000 in
lemma and_mask_eq : ∀ x : Nat, x < 256 → x &&& 254 = 2 * (x / 2) := by decide

/-! ### Per-pixel encode/decode lemmas -/

lemma lsb_of_choice (x : Nat) (s : Bool) :
    (((if s = true then x ||| 1 else x &&& 254) &&& 1) != 0) = s := by
  cases s <;> simp [or_one_and_one, and_mask_and_one]

lemma choice_or (x : Nat) (s : Bool) :
    (if s = true then x ||| 1 else x &&& 254) = x ||| 1 ∨
      (if s = true then x ||| 1 else x &&& 254) = x &&& 254 := by
  cases s <;> simp

set_option maxRecDepth 4000 in
/-- `encode_pixel` on a 3-bit chunk: it always succeeds (the `lookup_vn`
panic is unreachable), `decode_pixel` recovers the chunk, and each output
channel is the input channel with its LSB forced to 1 or forced to 0. -/
lemma encode_pixel_spec (r g b : Nat) (c : List Bool) (hc : c.length = 3) :
    ∃ nr ng nb, Encoder.encode_pixel r g b c = some (nr, ng, nb) ∧
      Decoder.decode_pixel nr ng nb = c ∧
      (nr = r ||| 1 ∨ nr = r &&& 254) ∧ (ng = g ||| 1 ∨ ng = g &&& 254) ∧
      (nb = b ||| 1 ∨ nb = b &&& 254) := by
  obtain ⟨m0, m1, m2, rfl⟩ := List.length_eq_three.mp hc
  cases hra : (r &&& 1) != 0 <;> cases hga : (g &&& 1) != 0 <;> cases hba : (b &&& 1) != 0 <;>
    cases m0 <;> cases m1 <;> cases m2 <;>
  · simp only [Encoder.encode_pixel, hra, hga, hba]
    refine ⟨_, _, _, rfl, ?_, choice_or _ _, choice_or _ _, choice_or _ _⟩
    simp only [Decoder.decode_pixel, lsb_of_choice]
    decide



/-! ### Row-major traversal -/

lemma rowMajorCoords_eq (w h : Nat) :
    Encoder.rowMajorCoords w h = (List.range (w * h)).map (fun k => (k % w, k / w)) := by
  rcases Nat.eq_zero_or_pos w with hw | hw
  · subst hw
    simp [Encoder.rowMajorCoords]
  · induction h with
    | zero => simp [Encoder.rowMajorCoords]
    | succ n ih =>
      simp only [Encoder.rowMajorCoords] at ih ⊢
      rw [List.range_succ, List.flatMap_append, ih,
        show w * (n + 1) = w * n + w by ring, List.range_add, List.map_append]
      congr 1
      simp only [List.flatMap_cons, List.flatMap_nil, List.append_nil, List.map_map]
      apply List.map_congr_left
      intro x hx
      have hxw : x < w := List.mem_range.mp hx
      have h1 : (w * n + x) % w = x := by
        rw [Nat.mul_add_mod, Nat.mod_eq_of_lt hxw]
      have h2 : (w * n + x) / w = n := by
        rw [Nat.mul_add_div hw, Nat.div_eq_of_lt hxw, Nat.add_zero]
      simp [Function.comp, h1, h2]

lemma encode_pixelT_spec (p : Rgb) (c : List Bool) (hc : c.length = 3) :
    Encoder.encode_pixel p.r p.g p.b c
        = some ((encode_pixelT p c).r, (encode_pixelT p c).g, (encode_pixelT p c).b) ∧
      Decoder.decode_pixel (encode_pixelT p c).r (encode_pixelT p c).g (encode_pixelT p c).b = c ∧
      ((encode_pixelT p c).r = p.r ||| 1 ∨ (encode_pixelT p c).r = p.r &&& 254) ∧
      ((encode_pixelT p c).g = p.g ||| 1 ∨ (encode_pixelT p c).g = p.g &&& 254) ∧
      ((encode_pixelT p c).b = p.b ||| 1 ∨ (encode_pixelT p c).b = p.b &&& 254) := by
  obtain ⟨nr, ng, nb, he, hd, h1, h2, h3⟩ := encode_pixel_spec p.r p.g p.b c hc
  have hT : encode_pixelT p c = ⟨nr, ng, nb⟩ := by
    simp only [encode_pixelT, he]
  rw [hT]
  exact ⟨he, hd, h1, h2, h3⟩

lemma applyChunks_nil (cs : List (List Bool)) : applyChunks [] cs = [] := by
  cases cs <;> rfl

lemma applyChunks_none (ps : List Rgb) : applyChunks ps [] = ps := by
  cases ps <;> rfl

lemma applyChunks_length : ∀ (ps : List Rgb) (cs : List (List Bool)),
    (applyChunks ps cs).length = ps.length
  | ps, [] => by rw [applyChunks_none]
  | [], _ :: _ => rfl
  | p :: ps, c :: cs => by
    simp only [applyChunks, List.length_cons, applyChunks_length ps cs]

lemma set_append_singleton (a : List α) (b v : α) :
    (a ++ [b]).set a.length v = a ++ [v] := by
  induction a with
  | nil => rfl
  | cons x xs ih => simp [List.set_cons_succ, ih]

/-- Invariant proof for `encode_loop` on the row-major suffix starting at
pixel `k`: it succeeds and produces `applyChunks` on the remaining pixels. -/
lemma encode_loop_spec (chunks : List (List Bool)) (hch : ∀ c ∈ chunks, c.length = 3)
    (w h : Nat) :
    ∀ (n k : Nat) (img : StegoImage), img.width = w → img.height = h →
      img.pixels.length = w * h → k + n = w * h →
      ∃ img', Encoder.encode_loop chunks ((List.range' k n).map (fun i => (i % w, i / w))) k img
          = .ok img'
        ∧ img'.width = w ∧ img'.height = h
        ∧ img'.pixels = img.pixels.take k ++ applyChunks (img.pixels.drop k) (chunks.drop k) := by
  intro n
  induction n with
  | zero =>
    intro k img hw hh hlen hk
    refine ⟨img, rfl, hw, hh, ?_⟩
    have hdrop : img.pixels.drop k = [] := List.drop_eq_nil_of_le (by omega)
    rw [hdrop, applyChunks_nil, List.append_nil, List.take_of_length_le (by omega)]
  | succ n ih =>
    intro k img hw hh hlen hk
    rw [List.range'_succ, List.map_cons]
    by_cases hidx : chunks.length ≤ k
    · refine ⟨img, ?_, hw, hh, ?_⟩
      · simp only [Encoder.encode_loop]
        rw [if_pos (by omega)]
      · rw [List.drop_eq_nil_of_le hidx, applyChunks_none, List.take_append_drop]
    · have hkwh : k < w * h := by omega
      have hwpos : 0 < w := by
        rcases Nat.eq_zero_or_pos w with h0 | h0
        · rw [h0, Nat.zero_mul] at hkwh
          omega
        · exact h0
      have hxw : k % w < w := Nat.mod_lt _ hwpos
      have hyh : k / w < h := by
        rw [Nat.div_lt_iff_lt_mul hwpos, Nat.mul_comm]
        omega
      have hbound : ¬(k % w ≥ img.width ∨ k / w ≥ img.height) := by
        rw [hw, hh]
        push_neg
        exact ⟨hxw, hyh⟩
      have hidx2 : k / w * w + k % w = k := Nat.div_add_mod' k w
      have hkchunks : k < chunks.length := by omega
      have hklen : k < img.pixels.length := by
        rw [hlen]
        omega
      have hcgetD : chunks.getD k [] = chunks[k] := by
        simp [List.getD_eq_getElem?_getD, List.getElem?_eq_getElem hkchunks]
      have hpgetD : img.pixels.getD k ⟨0, 0, 0⟩ = img.pixels[k] := by
        simp [List.getD_eq_getElem?_getD, List.getElem?_eq_getElem hklen]
      have hc3 : (chunks[k]).length = 3 := hch _ (List.getElem_mem hkchunks)
      obtain ⟨he, _hd, _⟩ := encode_pixelT_spec (img.pixels[k]) (chunks[k]) hc3
      have hget : img.get_pixel_rgb (k % w) (k / w) = .ok img.pixels[k] := by
        simp only [StegoImage.get_pixel_rgb]
        rw [if_neg hbound, hw, show k / w * w + k % w = k from hidx2, hpgetD]
      have hset : ∀ p : Rgb, img.set_pixel_rgb (k % w) (k / w) p
          = .ok { img with pixels := img.pixels.set k p, modified := true } := by
        intro p
        simp only [StegoImage.set_pixel_rgb]
        rw [if_neg hbound, hw, show k / w * w + k % w = k from hidx2]
      simp only [Encoder.encode_loop]
      rw [if_neg (by omega)]
      rw [hget]
      simp only [hcgetD, he, hset]
      set T := encode_pixelT img.pixels[k] chunks[k] with hTdef
      obtain ⟨img', hrun, hw', hh', hpix⟩ :=
        ih (k + 1)
          { img with pixels := img.pixels.set k ⟨T.r, T.g, T.b⟩, modified := true }
          hw hh (by simpa using hlen) (by omega)
      refine ⟨img', hrun, hw', hh', ?_⟩
      rw [hpix]
      simp only
      have hTeta : (⟨T.r, T.g, T.b⟩ : Rgb) = T := rfl
      rw [hTeta]
      have htakelen : (img.pixels.take k).length = k := by
        rw [List.length_take]
        omega
      have h1 : (img.pixels.set k T).take (k + 1) = img.pixels.take k ++ [T] := by
        calc (img.pixels.set k T).take (k + 1)
            = (img.pixels.take (k + 1)).set k T := List.set_take
          _ = (img.pixels.take k ++ [img.pixels[k]]).set k T := by
              rw [List.take_succ, List.getElem?_eq_getElem hklen]
              rfl
          _ = (img.pixels.take k ++ [img.pixels[k]]).set (img.pixels.take k).length T := by
              rw [htakelen]
          _ = img.pixels.take k ++ [T] := set_append_singleton _ _ _
      have h2 : (img.pixels.set k T).drop (k + 1) = img.pixels.drop (k + 1) := by
        rw [List.drop_set, if_pos (by omega)]
      rw [h1, h2, List.drop_eq_getElem_cons hklen, List.drop_eq_getElem_cons hkchunks]
      simp only [applyChunks, ← hTdef]
      rw [List.append_assoc, List.singleton_append]

lemma byteBits_length (byte : Nat) : (byteBits byte).length = 8 := by
  simp [byteBits]

lemma bytes_to_bits_length (bytes : List Nat) :
    (bytes_to_bits bytes).length = 8 * bytes.length := by
  induction bytes with
  | nil => rfl
  | cons x l ih =>
    rw [bytes_to_bits_eq_flatMap, List.flatMap_cons, ← bytes_to_bits_eq_flatMap,
      List.length_append, ih, byteBits_length, List.length_cons]
    ring

lemma bytes_to_bits_append (xs ys : List Nat) :
    bytes_to_bits (xs ++ ys) = bytes_to_bits xs ++ bytes_to_bits ys := by
  simp [bytes_to_bits_eq_flatMap]

/-- `encode_message` succeeds whenever the message bits fit, and its effect
is `applyChunks` with the 3-bit chunking of the message bits. -/
lemma encode_message_spec (img : StegoImage) (message : List Nat)
    (hwf : img.pixels.length = img.width * img.height)
    (hfit : 8 * message.length ≤ img.width * img.height * 3) :
    ∃ img', Encoder.encode_message img message = .ok img'
      ∧ img'.width = img.width ∧ img'.height = img.height
      ∧ img'.pixels.length = img.width * img.height
      ∧ img'.pixels = applyChunks img.pixels
          (split_bits_go 3 (bytes_to_bits message).length (bytes_to_bits message)) := by
  have hlen8 : (bytes_to_bits message).length = 8 * message.length :=
    bytes_to_bits_length message
  have hch : ∀ c ∈ split_bits_go 3 (bytes_to_bits message).length (bytes_to_bits message),
      c.length = 3 := fun c hc => split_bits_go_length_mem 3 _ _ c hc
  obtain ⟨img', hrun, hw', hh', hpix⟩ :=
    encode_loop_spec (split_bits_go 3 (bytes_to_bits message).length (bytes_to_bits message))
      hch img.width img.height (img.width * img.height) 0 img rfl rfl hwf (by omega)
  simp only [List.take_zero, List.drop_zero, List.nil_append] at hpix
  refine ⟨img', ?_, hw', hh', ?_, hpix⟩
  · simp only [Encoder.encode_message]
    rw [if_neg (by omega)]
    simp only [split_bits]
    rw [if_neg (by omega)]
    rw [rowMajorCoords_eq, List.range_eq_range']
    exact hrun
  · rw [hpix, applyChunks_length, hwf]

/-- `encode` succeeds whenever the message respects `max_message_size` and
the image can hold the 8-byte header; the embedded byte stream is
`header ++ message`. -/
lemma encode_spec (img : StegoImage) (message : List Nat)
    (hwf : img.pixels.length = img.width * img.height)
    (hlen : message.length ≤ Encoder.max_message_size img)
    (hcap : 64 ≤ img.width * img.height * 3) :
    ∃ img', Encoder.encode img message = .ok img'
      ∧ img'.width = img.width ∧ img'.height = img.height
      ∧ img'.pixels.length = img.width * img.height
      ∧ img'.pixels = applyChunks img.pixels
          (split_bits_go 3
            (bytes_to_bits (Encoder.create_header (message.length % 2 ^ 32) ++ message)).length
            (bytes_to_bits (Encoder.create_header (message.length % 2 ^ 32) ++ message))) := by
  have h8 : 8 * (img.width * img.height * 3 / 8) ≤ img.width * img.height * 3 := by
    have := Nat.div_mul_le_self (img.width * img.height * 3) 8
    omega
  have hmax : Encoder.max_message_size img
      = if img.width * img.height * 3 / 8 ≤ 8 then 0
        else img.width * img.height * 3 / 8 - 8 := by
    simp [Encoder.max_message_size, HEADER_SIZE]
  have hfull : (Encoder.create_header (message.length % 2 ^ 32) ++ message).length
      = 8 + message.length := by
    simp [Encoder.create_header]
    omega
  have hfit : 8 * (Encoder.create_header (message.length % 2 ^ 32) ++ message).length
      ≤ img.width * img.height * 3 := by
    rw [hfull]
    rw [hmax] at hlen
    by_cases htb : img.width * img.height * 3 / 8 ≤ 8
    · rw [if_pos htb] at hlen
      omega
    · rw [if_neg htb] at hlen
      omega
  obtain ⟨img', hrun, hw', hh', hplen, hpix⟩ :=
    encode_message_spec img (Encoder.create_header (message.length % 2 ^ 32) ++ message) hwf hfit
  refine ⟨img', ?_, hw', hh', hplen, hpix⟩
  simp only [Encoder.encode]
  rw [if_neg (by omega)]
  exact hrun


lemma decode_pixel_length (r g b : Nat) : (Decoder.decode_pixel r g b).length = 3 := by
  simp [Decoder.decode_pixel, Encoder.matrix_multiply]

lemma flatMap_decode_length (ps : List Rgb) :
    (ps.flatMap (fun p => Decoder.decode_pixel p.r p.g p.b)).length = 3 * ps.length := by
  induction ps with
  | nil => rfl
  | cons p ps ih =>
    rw [List.flatMap_cons, List.length_append, ih, decode_pixel_length, List.length_cons]
    ring

lemma imageBits_length (img : StegoImage) : (imageBits img).length = 3 * img.pixels.length :=
  flatMap_decode_length img.pixels

lemma flatMap_decode_take (ps : List Rgb) (k : Nat) (hk : k ≤ ps.length) :
    (ps.flatMap (fun p => Decoder.decode_pixel p.r p.g p.b)).take (3 * k)
      = (ps.take k).flatMap (fun p => Decoder.decode_pixel p.r p.g p.b) := by
  conv_lhs => rw [← List.take_append_drop k ps]
  rw [List.flatMap_append]
  rw [List.take_left' (by rw [flatMap_decode_length, List.length_take]; omega)]

lemma imageBits_take_succ (img : StegoImage) (k : Nat) (hk : k < img.pixels.length) :
    (imageBits img).take (3 * k) ++
        Decoder.decode_pixel img.pixels[k].r img.pixels[k].g img.pixels[k].b
      = (imageBits img).take (3 * (k + 1)) := by
  rw [imageBits, flatMap_decode_take _ k (by omega), flatMap_decode_take _ (k + 1) (by omega),
    List.take_succ, List.getElem?_eq_getElem hk]
  simp only [List.flatMap_append, List.flatMap_cons, List.flatMap_nil, List.append_nil,
    Option.toList_some]

lemma extract_header_take (bits : List Bool) (n : Nat) (h64 : 64 ≤ n)
    (hlen : 64 ≤ bits.length) :
    Decoder.extract_header (bits.take n) = Decoder.extract_header bits := by
  have h1 : (bits.take n).take (HEADER_SIZE * 8) = bits.take (HEADER_SIZE * 8) := by
    rw [List.take_take, show min (HEADER_SIZE * 8) n = HEADER_SIZE * 8 from by
      simp only [HEADER_SIZE]
      omega]
  have h2 : ¬ (bits.take n).length < HEADER_SIZE * 8 := by
    rw [List.length_take]
    simp only [HEADER_SIZE]
    omega
  have h3 : ¬ bits.length < HEADER_SIZE * 8 := by
    simp only [HEADER_SIZE]
    omega
  simp only [Decoder.extract_header]
  rw [if_neg h2, if_neg h3, h1]

/-- Decoding the pixels written by `applyChunks` with 3-bit chunks recovers
exactly the chunks, followed by the decoded bits of the untouched pixels. -/
lemma applyChunks_flatMap_decode :
    ∀ (ps : List Rgb) (cs : List (List Bool)), cs.length ≤ ps.length →
      (∀ c ∈ cs, c.length = 3) →
      (applyChunks ps cs).flatMap (fun p => Decoder.decode_pixel p.r p.g p.b)
        = cs.flatten ++
          (ps.drop cs.length).flatMap (fun p => Decoder.decode_pixel p.r p.g p.b)
  | ps, [], _, _ => by rw [applyChunks_none]; simp
  | [], c :: cs, hle, _ => by simp at hle
  | p :: ps, c :: cs, hle, hch => by
    have hc3 : c.length = 3 := hch c (List.mem_cons_self c cs)
    obtain ⟨_, hd, _⟩ := encode_pixelT_spec p c hc3
    simp only [applyChunks, List.flatMap_cons, List.flatten_cons, List.drop_succ_cons]
    rw [hd]
    rw [applyChunks_flatMap_decode ps cs (by simpa using hle)
      (fun c' hc' => hch c' (List.mem_cons_of_mem c hc'))]
    rw [List.append_assoc]
    simp only [List.length_cons, List.drop_succ_cons]


lemma required_pixels_eq : Decoder.required_pixels = 22 := rfl

/-- Full characterization of the decoder's pixel loop on the row-major
suffix starting at pixel `k` with the accumulator holding the first `3 * k`
decoded bits. -/
lemma decode_loop_run (img : StegoImage) (w h : Nat) (hw : img.width = w) (hh : img.height = h)
    (hwf : img.pixels.length = w * h) :
    ∀ (n k : Nat), k + n = w * h →
      Decoder.decode_loop img ((List.range' k n).map (fun i => (i % w, i / w)))
          ((imageBits img).take (3 * k)) k
        = if k < 22 ∧ 22 ≤ w * h then
            match Decoder.extract_header ((imageBits img).take 66) with
            | .error e => .error e
            | .ok (_, message_length) =>
              if (HEADER_SIZE * 8 + message_length * 8 + 2) / 3 > w * h then
                .error .NoMessageFound
              else .ok (imageBits img)
          else .ok (imageBits img) := by
  intro n
  induction n with
  | zero =>
    intro k hk
    rw [if_neg (by omega)]
    simp only [List.range'_zero, List.map_nil, Decoder.decode_loop]
    rw [List.take_of_length_le (by rw [imageBits_length, hwf]; omega)]
  | succ n ih =>
    intro k hk
    have hkwh : k < w * h := by omega
    have hwpos : 0 < w := by
      rcases Nat.eq_zero_or_pos w with h0 | h0
      · rw [h0, Nat.zero_mul] at hkwh
        omega
      · exact h0
    have hxw : k % w < w := Nat.mod_lt _ hwpos
    have hyh : k / w < h := by
      rw [Nat.div_lt_iff_lt_mul hwpos, Nat.mul_comm]
      omega
    have hbound : ¬(k % w ≥ img.width ∨ k / w ≥ img.height) := by
      rw [hw, hh]
      push_neg
      exact ⟨hxw, hyh⟩
    have hidx2 : k / w * w + k % w = k := Nat.div_add_mod' k w
    have hklen : k < img.pixels.length := by
      rw [hwf]
      omega
    have hpgetD : img.pixels.getD k ⟨0, 0, 0⟩ = img.pixels[k] := by
      simp [List.getD_eq_getElem?_getD, List.getElem?_eq_getElem hklen]
    have hget : img.get_pixel_rgb (k % w) (k / w) = .ok img.pixels[k] := by
      simp only [StegoImage.get_pixel_rgb]
      rw [if_neg hbound, hw, show k / w * w + k % w = k from hidx2, hpgetD]
    rw [List.range'_succ, List.map_cons]
    simp only [Decoder.decode_loop]
    rw [hget]
    simp only [required_pixels_eq, imageBits_take_succ img k hklen]
    by_cases h22 : k + 1 = 22
    · rw [if_pos h22]
      rw [show (66 : Nat) = 3 * (k + 1) from by omega]
      rcases hE : Decoder.extract_header ((imageBits img).take (3 * (k + 1))) with e | val
      · rw [if_pos (show k < 22 ∧ 22 ≤ w * h from by omega)]
      · obtain ⟨v, L⟩ := val
        simp only [hw, hh]
        conv_rhs => rw [if_pos (show k < 22 ∧ 22 ≤ w * h from by omega)]
        by_cases hneed : (HEADER_SIZE * 8 + L * 8 + 2) / 3 > w * h
        · simp only [if_pos hneed]
        · simp only [if_neg hneed]
          rw [ih (k + 1) (by omega)]
          rw [if_neg (by omega)]
    · rw [if_neg h22]
      rw [ih (k + 1) (by omega)]
      have hiff : (k + 1 < 22 ∧ 22 ≤ w * h) ↔ (k < 22 ∧ 22 ≤ w * h) := by omega
      simp only [hiff]


/-- Closed-form characterization of `Decoder.decode` on any well-formed
image: capacity check, header parse from the decoded bit stream, declared
length check, message slice. -/
lemma decode_eq (img : StegoImage) (hwf : img.pixels.length = img.width * img.height) :
    Decoder.decode img =
      if img.width * img.height * 3 < 64 then .error .NoMessageFound
      else
        match Decoder.extract_header (imageBits img) with
        | .error e => .error e
        | .ok (_, message_length) =>
          if img.width * img.height * 3 < 64 + message_length * 8 then
            .error .NoMessageFound
          else .ok (bits_to_bytes (((imageBits img).drop 64).take (message_length * 8))) := by
  have hlenB : (imageBits img).length = img.width * img.height * 3 := by
    rw [imageBits_length, hwf]
    ring
  by_cases hcap : img.width * img.height * 3 < 64
  · rw [if_pos hcap]
    simp only [Decoder.decode]
    rw [if_pos (by simpa [HEADER_SIZE] using hcap)]
  · rw [if_neg hcap]
    have h22 : 22 ≤ img.width * img.height := by
      by_contra hlt
      push_neg at hlt
      have : img.width * img.height * 3 ≤ 63 := by omega
      omega
    simp only [Decoder.decode]
    rw [if_neg (by simpa [HEADER_SIZE] using hcap)]
    rw [rowMajorCoords_eq, List.range_eq_range']
    have hrun := decode_loop_run img img.width img.height rfl rfl hwf
      (img.width * img.height) 0 (by omega)
    simp only [Nat.mul_zero, List.take_zero] at hrun
    rw [hrun, if_pos (by omega)]
    have hEtake : Decoder.extract_header ((imageBits img).take 66)
        = Decoder.extract_header (imageBits img) :=
      extract_header_take _ 66 (by omega) (by omega)
    rw [hEtake]
    rcases hE : Decoder.extract_header (imageBits img) with e | val
    · rfl
    · obtain ⟨v, L⟩ := val
      simp only []
      have hiff : ((HEADER_SIZE * 8 + L * 8 + 2) / 3 > img.width * img.height)
          ↔ (img.width * img.height * 3 < 64 + L * 8) := by
        simp only [HEADER_SIZE]
        omega
      by_cases hneed : img.width * img.height * 3 < 64 + L * 8
      · rw [if_pos (hiff.mpr hneed), if_pos hneed]
      · rw [if_neg (fun hgt => hneed (hiff.mp hgt)), if_neg hneed]
        simp only []
        rw [hE]
        simp only []
        rw [if_neg (by rw [hlenB]; simp only [HEADER_SIZE]; omega)]
        norm_num [HEADER_SIZE]

lemma extract_loop_run (img : StegoImage) (w h : Nat) (hw : img.width = w)
    (hh : img.height = h) (hwf : img.pixels.length = w * h) :
    ∀ (n k : Nat), k + n = w * h →
      Decoder.extract_loop img ((List.range' k n).map (fun i => (i % w, i / w)))
          ((imageBits img).take (3 * k))
        = .ok (imageBits img) := by
  intro n
  induction n with
  | zero =>
    intro k hk
    simp only [List.range'_zero, List.map_nil, Decoder.extract_loop]
    rw [List.take_of_length_le (by rw [imageBits_length, hwf]; omega)]
  | succ n ih =>
    intro k hk
    have hkwh : k < w * h := by omega
    have hwpos : 0 < w := by
      rcases Nat.eq_zero_or_pos w with h0 | h0
      · rw [h0, Nat.zero_mul] at hkwh
        omega
      · exact h0
    have hbound : ¬(k % w ≥ img.width ∨ k / w ≥ img.height) := by
      rw [hw, hh]
      push_neg
      refine ⟨Nat.mod_lt _ hwpos, ?_⟩
      rw [Nat.div_lt_iff_lt_mul hwpos, Nat.mul_comm]
      omega
    have hklen : k < img.pixels.length := by
      rw [hwf]
      omega
    have hpgetD : img.pixels.getD k ⟨0, 0, 0⟩ = img.pixels[k] := by
      simp [List.getD_eq_getElem?_getD, List.getElem?_eq_getElem hklen]
    have hget : img.get_pixel_rgb (k % w) (k / w) = .ok img.pixels[k] := by
      simp only [StegoImage.get_pixel_rgb]
      rw [if_neg hbound, hw, show k / w * w + k % w = k from Nat.div_add_mod' k w, hpgetD]
    rw [List.range'_succ, List.map_cons]
    simp only [Decoder.extract_loop]
    rw [hget]
    simp only [imageBits_take_succ img k hklen]
    exact ih (k + 1) (by omega)

/-- `decode_two_phase` satisfies the same closed form as `decode`. -/
lemma decode_two_phase_eq (img : StegoImage)
    (hwf : img.pixels.length = img.width * img.height) :
    Decoder.decode_two_phase img =
      if img.width * img.height * 3 < 64 then .error .NoMessageFound
      else
        match Decoder.extract_header (imageBits img) with
        | .error e => .error e
        | .ok (_, message_length) =>
          if img.width * img.height * 3 < 64 + message_length * 8 then
            .error .NoMessageFound
          else .ok (bits_to_bytes (((imageBits img).drop 64).take (message_length * 8))) := by
  have hlenB : (imageBits img).length = img.width * img.height * 3 := by
    rw [imageBits_length, hwf]
    ring
  by_cases hcap : img.width * img.height * 3 < 64
  · rw [if_pos hcap]
    simp only [Decoder.decode_two_phase]
    rw [if_pos (by simpa [HEADER_SIZE] using hcap)]
  · rw [if_neg hcap]
    simp only [Decoder.decode_two_phase]
    rw [if_neg (by simpa [HEADER_SIZE] using hcap)]
    rw [rowMajorCoords_eq, List.range_eq_range']
    have hrun := extract_loop_run img img.width img.height rfl rfl hwf
      (img.width * img.height) 0 (by omega)
    simp only [Nat.mul_zero, List.take_zero] at hrun
    rw [hrun]
    simp only []
    rcases hE : Decoder.extract_header (imageBits img) with e | val
    · rfl
    · obtain ⟨v, L⟩ := val
      simp only []
      by_cases hneed : img.width * img.height * 3 < 64 + L * 8
      · rw [if_pos (by rw [hlenB]; simp only [HEADER_SIZE]; omega), if_pos hneed]
      · rw [if_neg (by rw [hlenB]; simp only [HEADER_SIZE]; omega), if_neg hneed]
        norm_num [HEADER_SIZE]

/-- The early header check is not separately observable: the faithful
decoder and the spec's two-phase decoder agree on every well-formed image. -/
lemma decode_eq_decode_two_phase (img : StegoImage)
    (hwf : img.pixels.length = img.width * img.height) :
    Decoder.decode img = Decoder.decode_two_phase img := by
  rw [decode_eq img hwf, decode_two_phase_eq img hwf]


/-! ### Header round trip -/

lemma or_add_of_dvd_lt {k : Nat} (x y : Nat) (hx : 2 ^ k ∣ x) (hy : y < 2 ^ k) :
    x ||| y = x + y := by
  obtain ⟨t, rfl⟩ := hx
  rw [← Nat.mul_add_lt_is_or hy]

/-- Reassembling the four big-endian length bytes recovers the length. -/
lemma header_reconstruct (L : Nat) (hL : L < 2 ^ 32) :
    ((L >>> 24) % 256) <<< 24 ||| ((L >>> 16) % 256) <<< 16 |||
      ((L >>> 8) % 256) <<< 8 ||| (L % 256) = L := by
  rw [Nat.shiftRight_eq_div_pow, Nat.shiftRight_eq_div_pow, Nat.shiftRight_eq_div_pow,
    Nat.shiftLeft_eq, Nat.shiftLeft_eq, Nat.shiftLeft_eq]
  have h1 : L / 2 ^ 24 % 256 * 2 ^ 24 ||| L / 2 ^ 16 % 256 * 2 ^ 16
      = L / 2 ^ 24 % 256 * 2 ^ 24 + L / 2 ^ 16 % 256 * 2 ^ 16 :=
    or_add_of_dvd_lt (k := 24) _ _ ⟨L / 2 ^ 24 % 256, by ring⟩ (by omega)
  have h2 : L / 2 ^ 24 % 256 * 2 ^ 24 + L / 2 ^ 16 % 256 * 2 ^ 16 ||| L / 2 ^ 8 % 256 * 2 ^ 8
      = L / 2 ^ 24 % 256 * 2 ^ 24 + L / 2 ^ 16 % 256 * 2 ^ 16 + L / 2 ^ 8 % 256 * 2 ^ 8 :=
    or_add_of_dvd_lt (k := 16) _ _
      ⟨L / 2 ^ 24 % 256 * 2 ^ 8 + L / 2 ^ 16 % 256, by ring⟩ (by omega)
  have h3 : L / 2 ^ 24 % 256 * 2 ^ 24 + L / 2 ^ 16 % 256 * 2 ^ 16 + L / 2 ^ 8 % 256 * 2 ^ 8
        ||| L % 256
      = L / 2 ^ 24 % 256 * 2 ^ 24 + L / 2 ^ 16 % 256 * 2 ^ 16 + L / 2 ^ 8 % 256 * 2 ^ 8
        + L % 256 :=
    or_add_of_dvd_lt (k := 8) _ _
      ⟨L / 2 ^ 24 % 256 * 2 ^ 16 + L / 2 ^ 16 % 256 * 2 ^ 8 + L / 2 ^ 8 % 256, by ring⟩
      (by omega)
  rw [h1, h2, h3]
  omega

/-- Inversion of a successful `encode`: the message fits, and the stego
pixels are exactly `applyChunks` of the framed byte stream. -/
lemma encode_ok_inv (img : StegoImage) (m : List Nat) (stego : StegoImage)
    (hwf : img.pixels.length = img.width * img.height)
    (hok : Encoder.encode img m = .ok stego) :
    64 + 8 * m.length ≤ img.width * img.height * 3 ∧
    stego.width = img.width ∧ stego.height = img.height ∧
    stego.pixels.length = img.width * img.height ∧
    stego.pixels = applyChunks img.pixels
      (split_bits_go 3
        (bytes_to_bits (Encoder.create_header (m.length % 2 ^ 32) ++ m)).length
        (bytes_to_bits (Encoder.create_header (m.length % 2 ^ 32) ++ m))) := by
  by_cases hgt : m.length > Encoder.max_message_size img
  · simp only [Encoder.encode] at hok
    rw [if_pos hgt] at hok
    simp at hok
  · push_neg at hgt
    have hbl : (bytes_to_bits (Encoder.create_header (m.length % 2 ^ 32) ++ m)).length
        = 64 + 8 * m.length := by
      rw [bytes_to_bits_length, List.length_append]
      simp only [Encoder.create_header, List.length_cons, List.length_nil]
      omega
    by_cases hcap : 64 ≤ img.width * img.height * 3
    · have h8 : 8 * (img.width * img.height * 3 / 8) ≤ img.width * img.height * 3 := by
        have := Nat.div_mul_le_self (img.width * img.height * 3) 8
        omega
      have hmax : Encoder.max_message_size img
          = if img.width * img.height * 3 / 8 ≤ 8 then 0
            else img.width * img.height * 3 / 8 - 8 := by
        simp [Encoder.max_message_size, HEADER_SIZE]
      have hfit : 64 + 8 * m.length ≤ img.width * img.height * 3 := by
        rw [hmax] at hgt
        by_cases htb : img.width * img.height * 3 / 8 ≤ 8
        · rw [if_pos htb] at hgt
          omega
        · rw [if_neg htb] at hgt
          omega
      obtain ⟨img', henc, hw', hh', hplen, hpix⟩ := encode_spec img m hwf hgt hcap
      rw [henc] at hok
      simp only [Except.ok.injEq] at hok
      subst hok
      exact ⟨hfit, hw', hh', hplen, hpix⟩
    · exfalso
      simp only [Encoder.encode] at hok
      rw [if_neg (by omega)] at hok
      simp only [Encoder.encode_message] at hok
      rw [hbl] at hok
      rw [if_pos (by omega)] at hok
      simp at hok


lemma create_header_bytes_lt (L : Nat) : ∀ x ∈ Encoder.create_header L, x < 256 := by
  intro x hx
  simp only [Encoder.create_header, MESSAGE_FORMAT_VERSION, List.mem_cons,
    List.not_mem_nil, or_false] at hx
  rcases hx with h | h | h | h | h | h | h | h <;> subst h <;> omega

lemma create_header_bits_length (L : Nat) :
    (bytes_to_bits (Encoder.create_header L)).length = 64 := by
  rw [bytes_to_bits_length]
  simp [Encoder.create_header]

/-- Parsing the header from an encoded bit stream recovers version 1 and
the exact message length. -/
lemma extract_header_encoded (L : Nat) (hL : L < 2 ^ 32) (tail : List Bool) :
    Decoder.extract_header (bytes_to_bits (Encoder.create_header L) ++ tail)
      = .ok (1, L) := by
  have hlen64 := create_header_bits_length L
  have hlen : (bytes_to_bits (Encoder.create_header L) ++ tail).length = 64 + tail.length := by
    rw [List.length_append, hlen64]
  simp only [Decoder.extract_header, HEADER_SIZE]
  rw [if_neg (by omega)]
  rw [show (8 * 8 : Nat) = 64 from rfl, List.take_append_of_le_length (by omega),
    List.take_of_length_le (by omega)]
  rw [bits_to_bytes_bytes_to_bits _ (create_header_bytes_lt L)]
  simp only [Encoder.create_header, MESSAGE_FORMAT_VERSION, EXPECTED_FORMAT_VERSION,
    List.getD_cons_zero, List.getD_cons_succ]
  rw [if_neg (by omega)]
  rw [header_reconstruct L hL]

/-- Claim C1 core: decoding an image produced by a successful `encode`
recovers the message. -/
lemma encode_then_decode (img : StegoImage) (m : List Nat) (stego : StegoImage)
    (hwf : img.pixels.length = img.width * img.height)
    (h32 : img.width * img.height * 3 < 2 ^ 32)
    (hm : ∀ x ∈ m, x < 256)
    (hok : Encoder.encode img m = .ok stego) :
    Decoder.decode stego = .ok m := by
  obtain ⟨hfit, hw', hh', hplen, hpix⟩ := encode_ok_inv img m stego hwf hok
  have hL32 : m.length < 2 ^ 32 := by omega
  rw [Nat.mod_eq_of_lt hL32] at hpix
  have hfbl : (bytes_to_bits (Encoder.create_header m.length ++ m)).length
      = 64 + 8 * m.length := by
    rw [bytes_to_bits_length, List.length_append]
    simp only [Encoder.create_header, List.length_cons, List.length_nil]
    omega
  have hcount : (split_bits_go 3 (bytes_to_bits (Encoder.create_header m.length ++ m)).length
        (bytes_to_bits (Encoder.create_header m.length ++ m))).length
      = ((bytes_to_bits (Encoder.create_header m.length ++ m)).length + 2) / 3 :=
    split_bits_go_count _ _ (le_refl _)
  have hflat := split_bits_go_flatten
    ((bytes_to_bits (Encoder.create_header m.length ++ m)).length)
    (bytes_to_bits (Encoder.create_header m.length ++ m)) (le_refl _)
  have hchlen : ∀ c ∈ split_bits_go 3
        (bytes_to_bits (Encoder.create_header m.length ++ m)).length
        (bytes_to_bits (Encoder.create_header m.length ++ m)), c.length = 3 :=
    fun c hc => split_bits_go_length_mem 3 _ _ c hc
  have hcle : (split_bits_go 3 (bytes_to_bits (Encoder.create_header m.length ++ m)).length
        (bytes_to_bits (Encoder.create_header m.length ++ m))).length
      ≤ img.pixels.length := by
    rw [hcount, hfbl, hwf]
    omega
  have hB : imageBits stego
      = bytes_to_bits (Encoder.create_header m.length) ++
          (bytes_to_bits m ++
            (List.replicate
                (3 * (((bytes_to_bits (Encoder.create_header m.length ++ m)).length + 2) / 3)
                  - (bytes_to_bits (Encoder.create_header m.length ++ m)).length) false ++
              (img.pixels.drop (split_bits_go 3
                  (bytes_to_bits (Encoder.create_header m.length ++ m)).length
                  (bytes_to_bits (Encoder.create_header m.length ++ m))).length).flatMap
                (fun p => Decoder.decode_pixel p.r p.g p.b))) := by
    rw [imageBits, hpix, applyChunks_flatMap_decode img.pixels _ hcle hchlen, hflat]
    rw [bytes_to_bits_append, List.append_assoc, List.append_assoc]
  have hwf2 : stego.pixels.length = stego.width * stego.height := by
    rw [hw', hh', hplen]
  rw [decode_eq stego hwf2]
  rw [if_neg (by rw [hw', hh']; omega)]
  have hE : Decoder.extract_header (imageBits stego) = .ok (1, m.length) := by
    rw [hB]
    exact extract_header_encoded m.length hL32 _
  rw [hE]
  simp only []
  rw [if_neg (by rw [hw', hh']; omega)]
  have hdrop : (imageBits stego).drop 64
      = bytes_to_bits m ++
          (List.replicate
              (3 * (((bytes_to_bits (Encoder.create_header m.length ++ m)).length + 2) / 3)
                - (bytes_to_bits (Encoder.create_header m.length ++ m)).length) false ++
            (img.pixels.drop (split_bits_go 3
                (bytes_to_bits (Encoder.create_header m.length ++ m)).length
                (bytes_to_bits (Encoder.create_header m.length ++ m))).length).flatMap
              (fun p => Decoder.decode_pixel p.r p.g p.b)) := by
    rw [hB, List.drop_left' (create_header_bits_length m.length)]
  rw [hdrop, List.take_append_of_le_length (by rw [bytes_to_bits_length]; omega),
    List.take_of_length_le (by rw [bytes_to_bits_length]; omega),
    bits_to_bytes_bytes_to_bits m hm]


lemma applyChunks_getD :
    ∀ (ps : List Rgb) (cs : List (List Bool)) (i : Nat),
      (applyChunks ps cs).getD i ⟨0, 0, 0⟩ =
        if i < cs.length ∧ i < ps.length then
          encode_pixelT (ps.getD i ⟨0, 0, 0⟩) (cs.getD i [])
        else ps.getD i ⟨0, 0, 0⟩
  | ps, [], i => by
    rw [applyChunks_none]
    simp
  | [], c :: cs, i => by
    rw [show applyChunks [] (c :: cs) = [] from rfl]
    simp
  | p :: ps, c :: cs, 0 => by
    simp [applyChunks]
  | p :: ps, c :: cs, i + 1 => by
    simp only [applyChunks, List.getD_cons_succ, List.length_cons]
    rw [applyChunks_getD ps cs i]
    by_cases hi : i < cs.length ∧ i < ps.length
    · rw [if_pos hi, if_pos (by omega)]
    · rw [if_neg hi, if_neg (by omega)]

/-- On a stream of at least 64 bits, `extract_header` either rejects the
version with `InvalidParameters` or returns version 1 with the parsed
length. -/
lemma extract_header_cases (bits : List Bool) (h64 : 64 ≤ bits.length) :
    (∃ s, Decoder.extract_header bits = .error (.InvalidParameters s)) ∨
      ∃ L, Decoder.extract_header bits = .ok (1, L) := by
  simp only [Decoder.extract_header, HEADER_SIZE]
  rw [if_neg (by omega)]
  by_cases hv : (bits_to_bytes (bits.take (8 * 8))).getD 0 0 ≠ EXPECTED_FORMAT_VERSION
  · left
    refine ⟨"Unsupported message format version: "
      ++ toString ((bits_to_bytes (bits.take (8 * 8))).getD 0 0), ?_⟩
    rw [if_pos hv]
  · right
    push_neg at hv
    refine ⟨(bits_to_bytes (bits.take (8 * 8))).getD 1 0 <<< 24 |||
      (bits_to_bytes (bits.take (8 * 8))).getD 2 0 <<< 16 |||
      (bits_to_bytes (bits.take (8 * 8))).getD 3 0 <<< 8 |||
      (bits_to_bytes (bits.take (8 * 8))).getD 4 0, ?_⟩
    rw [if_neg (by omega)]
    rw [hv]
    rfl

lemma extract_header_invalid (bits : List Bool) (h64 : 64 ≤ bits.length)
    (hv : (bits_to_bytes (bits.take 64)).getD 0 0 ≠ 1) :
    ∃ s, Decoder.extract_header bits = .error (.InvalidParameters s) := by
  simp only [Decoder.extract_header, HEADER_SIZE]
  rw [if_neg (by omega)]
  refine ⟨"Unsupported message format version: "
    ++ toString ((bits_to_bytes (bits.take (8 * 8))).getD 0 0), ?_⟩
  rw [if_pos (by simpa [EXPECTED_FORMAT_VERSION] using hv)]



/-! ## Claim theorems -/

/-- C1: for every cover image and every message `m` with
`len(m) ≤ Encoder::max_message_size(image)`, decoding the image produced by
`Encoder::encode(image, m)` with `Decoder::decode` returns exactly `m`.
`hwf` is the image-buffer invariant, `h32` keeps the source's `u32` pixel
arithmetic overflow-free, and `hm` says the message is a byte string. -/
theorem C1_encode_decode_round_trip (img : StegoImage) (m : List Nat) (stego : StegoImage)
    (hwf : img.pixels.length = img.width * img.height)
    (h32 : img.width * img.height * 3 < 2 ^ 32)
    (hm : ∀ x ∈ m, x < 256)
    (hlen : m.length ≤ Encoder.max_message_size img)
    (hok : Encoder.encode img m = .ok stego) :
    Decoder.decode stego = .ok m :=
  encode_then_decode img m stego hwf h32 hm hok

/-- C1 witness: a 6×5 all-zero cover image with the 2-byte message
`[72, 105]` round-trips. -/
theorem C1_witness :
    Decoder.decode ((Encoder.encode (StegoImage.new_rgb 6 5) [72, 105]).toOption.getD
        (StegoImage.new_rgb 6 5))
      = .ok [72, 105] :=
  C1_encode_decode_round_trip (StegoImage.new_rgb 6 5) [72, 105] _ (by decide) (by decide)
    (by decide) (by decide) rfl

/-- C2: for every 3-bit vector `vc` and every 3-bit message vector `m`,
`matrix_multiply (vc XOR lookup_vn (matrix_multiply vc XOR m)) = m`, where
XOR acts bitwise on the 3-bit vectors. -/
theorem C2_matrix_inverse_identity :
    ∀ a b c d e f : Bool,
      (BLTM3x3.lookup_vn
          (List.zipWith xor (Encoder.matrix_multiply [a, b, c]) [d, e, f])).map
        (fun vn => Encoder.matrix_multiply (List.zipWith xor [a, b, c] vn))
      = some [d, e, f] := by decide

/-- C3 counterexample: on a 2×2 image `Encoder::max_message_size` is 0, and
encoding the empty message — of exactly that length — fails with
`MessageTooLarge`, refuting the claim's "encoding a message of exactly that
length succeeds" for every image. -/
theorem C3_counterexample :
    ([] : List Nat).length = Encoder.max_message_size (StegoImage.new_rgb 2 2) ∧
    Encoder.encode (StegoImage.new_rgb 2 2) [] = .error .MessageTooLarge :=
  ⟨rfl, rfl⟩

/-- C3 (amended): `Encoder::max_message_size = max(0, floor(w*h*3/8) − 8)`;
encoding a message one byte longer always fails with `MessageTooLarge`; and
encoding a message of exactly that length succeeds provided the image can
hold the 64-bit header (`w*h*3 ≥ 64`).  (For smaller images even the empty
message is rejected, as the counterexample shows.) -/
theorem C3_capacity_boundary_amended (img : StegoImage)
    (hwf : img.pixels.length = img.width * img.height)
    (h32 : img.width * img.height * 3 < 2 ^ 32) :
    Encoder.max_message_size img = max 0 (img.width * img.height * 3 / 8 - 8) ∧
    (∀ m : List Nat, m.length = Encoder.max_message_size img + 1 →
      Encoder.encode img m = .error .MessageTooLarge) ∧
    (64 ≤ img.width * img.height * 3 →
      ∀ m : List Nat, m.length = Encoder.max_message_size img →
        (Encoder.encode img m).isOk = true) := by
  have hmax : Encoder.max_message_size img
      = if img.width * img.height * 3 / 8 ≤ 8 then 0
        else img.width * img.height * 3 / 8 - 8 := by
    simp [Encoder.max_message_size, HEADER_SIZE]
  refine ⟨?_, ?_, ?_⟩
  · rw [hmax]
    by_cases htb : img.width * img.height * 3 / 8 ≤ 8
    · rw [if_pos htb]
      omega
    · rw [if_neg htb]
      omega
  · intro m hm
    simp only [Encoder.encode]
    rw [if_pos (by omega)]
  · intro hcap m hm
    obtain ⟨img', henc, _⟩ := encode_spec img m hwf (by omega) hcap
    rw [henc]
    rfl

/-- C3 witness: on a 6×5 image (capacity 3 bytes) a 3-byte message is
accepted and a 4-byte message is rejected. -/
theorem C3_witness :
    (Encoder.encode (StegoImage.new_rgb 6 5) [0, 0, 0]).isOk = true ∧
    Encoder.encode (StegoImage.new_rgb 6 5) [0, 0, 0, 0] = .error .MessageTooLarge :=
  ⟨(C3_capacity_boundary_amended (StegoImage.new_rgb 6 5) (by decide) (by decide)).2.2
      (by decide) [0, 0, 0] (by decide),
    (C3_capacity_boundary_amended (StegoImage.new_rgb 6 5) (by decide) (by decide)).2.1
      [0, 0, 0, 0] (by decide)⟩

/-- C4: `Decoder::decode` fails with `NoMessageFound` exactly when the image
has fewer than 64 embeddable bits, or the first 22 decoded pixels carry a
version-1 header whose declared length `L` needs `ceil((64 + 8*L)/3)` pixels
exceeding `width*height`; and the faithful decoder agrees everywhere with
the spec's two-phase decoder that has no early exit, so failing fast is not
separately observable. -/
theorem C4_no_message_found_iff (img : StegoImage)
    (hwf : img.pixels.length = img.width * img.height)
    (h32 : img.width * img.height * 3 < 2 ^ 32) :
    (Decoder.decode img = .error .NoMessageFound ↔
      img.width * img.height * 3 < 64 ∨
      ∃ L, Decoder.extract_header ((imageBits img).take 66) = .ok (1, L) ∧
        img.width * img.height < (64 + 8 * L + 2) / 3) ∧
    Decoder.decode img = Decoder.decode_two_phase img := by
  refine ⟨?_, decode_eq_decode_two_phase img hwf⟩
  rw [decode_eq img hwf]
  by_cases hcap : img.width * img.height * 3 < 64
  · rw [if_pos hcap]
    exact iff_of_true rfl (Or.inl hcap)
  · rw [if_neg hcap]
    have h64 : 64 ≤ (imageBits img).length := by
      rw [imageBits_length, hwf]
      omega
    have htake := extract_header_take (imageBits img) 66 (by omega) h64
    rcases extract_header_cases (imageBits img) h64 with ⟨s, hE⟩ | ⟨L, hE⟩
    · rw [hE]
      apply iff_of_false
      · simp
      · rintro (h | ⟨L, hok', _⟩)
        · exact hcap h
        · rw [htake, hE] at hok'
          simp at hok'
    · rw [hE]
      simp only []
      by_cases hneed : img.width * img.height * 3 < 64 + L * 8
      · rw [if_pos hneed]
        refine iff_of_true rfl (Or.inr ⟨L, by rw [htake, hE], by omega⟩)
      · rw [if_neg hneed]
        apply iff_of_false
        · simp
        · rintro (h | ⟨L', hok', hlt⟩)
          · exact hcap h
          · rw [htake, hE] at hok'
            simp only [Except.ok.injEq, Prod.mk.injEq] at hok'
            omega

/-- C4 witness: a 2×2 image (12 embeddable bits, fewer than the 64-bit
header) decodes to `NoMessageFound`. -/
theorem C4_witness :
    Decoder.decode (StegoImage.new_rgb 2 2) = .error .NoMessageFound :=
  (C4_no_message_found_iff (StegoImage.new_rgb 2 2) (by decide) (by decide)).1.mpr
    (Or.inl (by decide))

/-- C5: on any stego image whose capacity is at least 64 bits and whose
decoded bit stream starts with a header byte different from 1,
`Decoder::decode` fails with `InvalidParameters`. -/
theorem C5_header_rejection (img : StegoImage)
    (hwf : img.pixels.length = img.width * img.height)
    (h32 : img.width * img.height * 3 < 2 ^ 32)
    (hcap : 64 ≤ img.width * img.height * 3)
    (hv : (bits_to_bytes ((imageBits img).take 64)).getD 0 0 ≠ 1) :
    isInvalidParametersError (Decoder.decode img) = true := by
  rw [decode_eq img hwf]
  rw [if_neg (by omega)]
  obtain ⟨s, hE⟩ := extract_header_invalid (imageBits img)
    (by rw [imageBits_length, hwf]; omega) hv
  rw [hE]
  rfl

/-- C5 witness: a 22×1 all-zero image has 66 bits of capacity and decodes a
header version of 0, so decoding fails with `InvalidParameters`. -/
theorem C5_witness :
    isInvalidParametersError (Decoder.decode (StegoImage.new_rgb 22 1)) = true :=
  C5_header_rejection (StegoImage.new_rgb 22 1) (by decide) (by decide) (by decide)
    (by decide)

/-- C6: a successful `encode` changes at most the least-significant bit of
each channel of the first `ceil((64 + 8*len(m))/3)` pixels (bits 1..7 of
every channel, expressed as the quotient by 2, are preserved), and every
pixel beyond that prefix is byte-for-byte identical to the cover. -/
theorem C6_frame_effect (img : StegoImage) (m : List Nat) (stego : StegoImage)
    (hwf : img.pixels.length = img.width * img.height)
    (h32 : img.width * img.height * 3 < 2 ^ 32)
    (hpx : ∀ p ∈ img.pixels, p.r < 256 ∧ p.g < 256 ∧ p.b < 256)
    (hok : Encoder.encode img m = .ok stego) :
    stego.width = img.width ∧ stego.height = img.height ∧
    stego.pixels.length = img.pixels.length ∧
    (∀ i : Nat, (64 + 8 * m.length + 2) / 3 ≤ i →
      stego.pixels.getD i ⟨0, 0, 0⟩ = img.pixels.getD i ⟨0, 0, 0⟩) ∧
    (∀ i : Nat, i < img.pixels.length →
      (stego.pixels.getD i ⟨0, 0, 0⟩).r / 2 = (img.pixels.getD i ⟨0, 0, 0⟩).r / 2 ∧
      (stego.pixels.getD i ⟨0, 0, 0⟩).g / 2 = (img.pixels.getD i ⟨0, 0, 0⟩).g / 2 ∧
      (stego.pixels.getD i ⟨0, 0, 0⟩).b / 2 = (img.pixels.getD i ⟨0, 0, 0⟩).b / 2) := by
  obtain ⟨hfit, hw', hh', hplen, hpix⟩ := encode_ok_inv img m stego hwf hok
  have hL32 : m.length < 2 ^ 32 := by omega
  rw [Nat.mod_eq_of_lt hL32] at hpix
  have hfbl : (bytes_to_bits (Encoder.create_header m.length ++ m)).length
      = 64 + 8 * m.length := by
    rw [bytes_to_bits_length, List.length_append]
    simp only [Encoder.create_header, List.length_cons, List.length_nil]
    omega
  have hcount : (split_bits_go 3 (bytes_to_bits (Encoder.create_header m.length ++ m)).length
        (bytes_to_bits (Encoder.create_header m.length ++ m))).length
      = (64 + 8 * m.length + 2) / 3 := by
    rw [split_bits_go_count _ _ (le_refl _), hfbl]
  refine ⟨hw', hh', by rw [hplen, hwf], ?_, ?_⟩
  · intro i hi
    rw [hpix, applyChunks_getD]
    rw [if_neg (by rw [hcount]; omega)]
  · intro i hilen
    rw [hpix, applyChunks_getD]
    by_cases hcase : i < (split_bits_go 3
          (bytes_to_bits (Encoder.create_header m.length ++ m)).length
          (bytes_to_bits (Encoder.create_header m.length ++ m))).length
        ∧ i < img.pixels.length
    · rw [if_pos hcase]
      have hmem : img.pixels.getD i ⟨0, 0, 0⟩ ∈ img.pixels := by
        have h1 : img.pixels.getD i ⟨0, 0, 0⟩ = img.pixels[i] := by
          simp [List.getD_eq_getElem?_getD, List.getElem?_eq_getElem hilen]
        rw [h1]
        exact List.getElem_mem hilen
      obtain ⟨hr, hg, hb⟩ := hpx _ hmem
      have hlt := hcase.1
      have hc3 : ((split_bits_go 3
            (bytes_to_bits (Encoder.create_header m.length ++ m)).length
            (bytes_to_bits (Encoder.create_header m.length ++ m))).getD i []).length = 3 := by
        have h2 : (split_bits_go 3
              (bytes_to_bits (Encoder.create_header m.length ++ m)).length
              (bytes_to_bits (Encoder.create_header m.length ++ m))).getD i []
            = (split_bits_go 3 (bytes_to_bits (Encoder.create_header m.length ++ m)).length
              (bytes_to_bits (Encoder.create_header m.length ++ m)))[i] := by
          simp [List.getD_eq_getElem?_getD, List.getElem?_eq_getElem hlt]
        rw [h2]
        exact split_bits_go_length_mem 3 _ _ _ (List.getElem_mem hlt)
      obtain ⟨_, _, hcr, hcg, hcb⟩ := encode_pixelT_spec (img.pixels.getD i ⟨0, 0, 0⟩) _ hc3
      refine ⟨?_, ?_, ?_⟩
      · rcases hcr with h | h <;> rw [h]
        · exact or_one_div_two _
        · rw [and_mask_eq _ hr]
          omega
      · rcases hcg with h | h <;> rw [h]
        · exact or_one_div_two _
        · rw [and_mask_eq _ hg]
          omega
      · rcases hcb with h | h <;> rw [h]
        · exact or_one_div_two _
        · rw [and_mask_eq _ hb]
          omega
    · rw [if_neg hcase]
      exact ⟨rfl, rfl, rfl⟩

/-- C6 witness: encoding `[72, 105]` into a 6×5 cover uses 27 pixels; pixel
29 is untouched. -/
theorem C6_witness :
    ((Encoder.encode (StegoImage.new_rgb 6 5) [72, 105]).toOption.getD
        (StegoImage.new_rgb 6 5)).pixels.getD 29 ⟨0, 0, 0⟩
      = (StegoImage.new_rgb 6 5).pixels.getD 29 ⟨0, 0, 0⟩ :=
  (C6_frame_effect (StegoImage.new_rgb 6 5) [72, 105] _ (by decide) (by decide) (by decide)
    rfl).2.2.2.1 29 (by decide)

/-- C7: for every byte sequence `b`, `bits_to_bytes (bytes_to_bits b) = b`;
and packing a bit vector whose length is not a multiple of 8 equals packing
it with the final byte's unused low-order positions zero-filled. -/
theorem C7_bits_bytes_round_trip (b : List Nat) (hb : ∀ x ∈ b, x < 256)
    (bits : List Bool) (hbits : bits.length % 8 ≠ 0) :
    bits_to_bytes (bytes_to_bits b) = b ∧
    bits_to_bytes bits = bits_to_bytes (bits ++ List.replicate (8 - bits.length % 8) false) :=
  ⟨bits_to_bytes_bytes_to_bits b hb, (bits_to_bytes_pad bits hbits).symm⟩

/-- C7 witness: the bytes `[170, 85]` round-trip, and a 3-bit vector packs
as if zero-filled to 8 bits. -/
theorem C7_witness :
    bits_to_bytes (bytes_to_bits [170, 85]) = [170, 85] ∧
    bits_to_bytes [true, false, true]
      = bits_to_bytes ([true, false, true] ++
          List.replicate (8 - [true, false, true].length % 8) false) :=
  C7_bits_bytes_round_trip [170, 85] (by decide) [true, false, true] (by decide)

/-- C8: on every 3-bit input `lookup_vn` returns a 3-bit vector without
reaching its panic branch, the induced map on values 0..7 (MSB-first) is the
fixed table 0↦0, 1↦1, 2↦3, 3↦2, 4↦6, 5↦7, 6↦5, 7↦4, and no two inputs map
to the same output. -/
theorem C8_lookup_vn_bijection :
    (∀ a b c : Bool, (BLTM3x3.lookup_vn [a, b, c]).isSome = true) ∧
    (∀ a b c : Bool, ((BLTM3x3.lookup_vn [a, b, c]).getD []).length = 3) ∧
    BLTM3x3.lookup_vn (BLTM3x3.u8_to_bits 0) = some (BLTM3x3.u8_to_bits 0) ∧
    BLTM3x3.lookup_vn (BLTM3x3.u8_to_bits 1) = some (BLTM3x3.u8_to_bits 1) ∧
    BLTM3x3.lookup_vn (BLTM3x3.u8_to_bits 2) = some (BLTM3x3.u8_to_bits 3) ∧
    BLTM3x3.lookup_vn (BLTM3x3.u8_to_bits 3) = some (BLTM3x3.u8_to_bits 2) ∧
    BLTM3x3.lookup_vn (BLTM3x3.u8_to_bits 4) = some (BLTM3x3.u8_to_bits 6) ∧
    BLTM3x3.lookup_vn (BLTM3x3.u8_to_bits 5) = some (BLTM3x3.u8_to_bits 7) ∧
    BLTM3x3.lookup_vn (BLTM3x3.u8_to_bits 6) = some (BLTM3x3.u8_to_bits 5) ∧
    BLTM3x3.lookup_vn (BLTM3x3.u8_to_bits 7) = some (BLTM3x3.u8_to_bits 4) ∧
    ((List.range 8).map (fun v => BLTM3x3.lookup_vn (BLTM3x3.u8_to_bits v))).Nodup := by
  decide

/-- C9: `encode_pixel` on r=123, g=127, b=135 with message bits `[1, 1, 0]`
returns exactly (123, 126, 135): only the green LSB flips from 1 to 0. -/
theorem C9_encode_pixel_example :
    Encoder.encode_pixel 123 127 135 [true, true, false] = some (123, 126, 135) := rfl

/-- C10: the public `StegoImage::max_message_size` is `floor(w*h*3/8)` with
no header subtraction; whenever that exceeds 8 it is exactly 8 more than
`Encoder::max_message_size`; and a message of `StegoImage::max_message_size`
bytes is always rejected by `Encoder::encode` with `MessageTooLarge`. -/
theorem C10_stego_image_capacity (img : StegoImage)
    (h32 : img.width * img.height * 3 < 2 ^ 32) :
    StegoImage.max_message_size img = img.width * img.height * 3 / 8 ∧
    (8 < img.width * img.height * 3 / 8 →
      StegoImage.max_message_size img = Encoder.max_message_size img + 8) ∧
    (∀ m : List Nat, m.length = StegoImage.max_message_size img →
      Encoder.encode img m = .error .MessageTooLarge) := by
  have himg : StegoImage.max_message_size img = img.width * img.height * 3 / 8 := rfl
  have hmax : Encoder.max_message_size img
      = if img.width * img.height * 3 / 8 ≤ 8 then 0
        else img.width * img.height * 3 / 8 - 8 := by
    simp [Encoder.max_message_size, HEADER_SIZE]
  refine ⟨himg, ?_, ?_⟩
  · intro h8
    rw [himg, hmax, if_neg (by omega)]
    omega
  · intro m hm
    rw [himg] at hm
    by_cases htb : img.width * img.height * 3 / 8 = 0
    · have hcap : img.width * img.height * 3 < 8 := by omega
      simp only [Encoder.encode]
      rw [if_neg (by rw [hmax, if_pos (by omega)]; omega)]
      simp only [Encoder.encode_message]
      rw [if_pos (by
        rw [bytes_to_bits_length, List.length_append]
        simp only [Encoder.create_header, List.length_cons, List.length_nil]
        omega)]
    · simp only [Encoder.encode]
      rw [if_pos (by rw [hmax]; split <;> omega)]

/-- C10 witness: a 10×10 image reports 37 bytes of raw capacity, and a
37-byte message is rejected by the encoder. -/
theorem C10_witness :
    Encoder.encode (StegoImage.new_rgb 10 10) (List.replicate 37 0)
      = .error .MessageTooLarge :=
  (C10_stego_image_capacity (StegoImage.new_rgb 10 10) (by decide)).2.2
    (List.replicate 37 0) (by decide)

end HideRs
